import Mathlib

/-!
Verification of the capability-gated event routing layer of a child-frame SDK.

The development shallowly embeds the SDK's event gate (feature registry
reverse lookup, always-enabled set), the memoization combinator, the
deferred/promise primitive, the client facade's routing methods
(`on`, `triggerEvent`, `getContext`, `handleEvent`, `init`), and the
payload validator `validateKey`.  Event types, feature types and handler
identities are kept as abstract types with decidable equality, and the
feature registry is a parameter, so every theorem holds for the concrete
registry of the SDK as a special case.
-/

/-- A Feature Definition of the registry: a feature type together with the
ordered list of event types it unlocks. -/
structure FeatureDefinition (Ev Ft : Type) where
  type : Ft
  events : List Ev
deriving DecidableEq

/-- Lookup in an association-list model of a JS `Map` from event types to
sets (lists) of feature types: `map.get(e)` returns `undefined` (here `none`)
when the key is absent. -/
def mapGet {Ev Ft : Type} [DecidableEq Ev]
    (m : List (Ev × List Ft)) (e : Ev) : Option (List Ft) :=
  (m.find? (fun p => p.1 = e)).map (fun p => p.2)

/-- `map.set(e, s)`: replace the binding for `e` if present, else append it. -/
def mapSet {Ev Ft : Type} [DecidableEq Ev]
    (m : List (Ev × List Ft)) (e : Ev) (s : List Ft) : List (Ev × List Ft) :=
  match m with
  | [] => [(e, s)]
  | p :: rest => if p.1 = e then (e, s) :: rest else p :: mapSet rest e s

/-- `set.add(f)` on the list model of a JS `Set`: append if not present. -/
def setAdd {Ft : Type} [DecidableEq Ft] (s : List Ft) (f : Ft) : List Ft :=
  if f ∈ s then s else s ++ [f]

/-- One iteration of the loop body of `getFeatureTypesByEvent`:
`if (!m.has(e)) m.set(e, new Set()); m.get(e)!.add(t)`. -/
def bucketAdd {Ev Ft : Type} [DecidableEq Ev] [DecidableEq Ft]
    (m : List (Ev × List Ft)) (e : Ev) (t : Ft) : List (Ev × List Ft) :=
  let m1 := if (mapGet m e).isSome then m else mapSet m e []
  mapSet m1 e (setAdd ((mapGet m1 e).getD []) t)

/-- The body of `getFeatureTypesByEvent` (the memoized getter of the
reverse map event → set of unlocking features), iterating over the feature
registry and over each definition's events. -/
def getFeatureTypesByEventCompute {Ev Ft : Type} [DecidableEq Ev] [DecidableEq Ft]
    (features : List (FeatureDefinition Ev Ft)) : List (Ev × List Ft) :=
  features.foldl
    (fun m feature => feature.events.foldl (fun acc e => bucketAdd acc e feature.type) m)
    []

/-- `isFeatureEnabled(feature, enabledFeatures)`: pure membership test. -/
def isFeatureEnabled {Ft : Type} [DecidableEq Ft]
    (feature : Ft) (enabledFeatures : List Ft) : Bool :=
  enabledFeatures.contains feature

/-- `isEventEnabled(event, enabledFeatures)`, with the always-enabled set
`enabledEvents` and the registry `features` as parameters (they live in
modules outside the embedded core and are opaque data here). -/
def isEventEnabled {Ev Ft : Type} [DecidableEq Ev] [DecidableEq Ft]
    (enabledEvents : List Ev) (features : List (FeatureDefinition Ev Ft))
    (event : Ev) (enabledFeatures : List Ft) : Bool :=
  if enabledEvents.contains event then
    true
  else
    match mapGet (getFeatureTypesByEventCompute features) event with
    | none => false
    | some enablingFeatures => enabledFeatures.any (fun f => enablingFeatures.contains f)

lemma mapGet_nil {Ev Ft : Type} [DecidableEq Ev] (e' : Ev) :
    mapGet ([] : List (Ev × List Ft)) e' = none := rfl

lemma mapGet_cons {Ev Ft : Type} [DecidableEq Ev]
    (k : Ev) (v : List Ft) (rest : List (Ev × List Ft)) (e' : Ev) :
    mapGet ((k, v) :: rest) e' = if k = e' then some v else mapGet rest e' := by
  by_cases h : k = e'
  · rw [if_pos h]
    unfold mapGet
    rw [List.find?_cons_of_pos _ (by simpa using h)]
    rfl
  · rw [if_neg h]
    unfold mapGet
    rw [List.find?_cons_of_neg _ (by simpa using h)]

lemma mapGet_mapSet {Ev Ft : Type} [DecidableEq Ev]
    (m : List (Ev × List Ft)) (e e' : Ev) (s : List Ft) :
    mapGet (mapSet m e s) e' = if e' = e then some s else mapGet m e' := by
  induction m with
  | nil =>
    show mapGet [(e, s)] e' = _
    rw [mapGet_cons, mapGet_nil]
    by_cases h : e' = e
    · simp [h]
    · rw [if_neg h, if_neg (fun hc => h hc.symm)]
  | cons p rest ih =>
    obtain ⟨k, v⟩ := p
    by_cases hke : k = e
    · subst hke
      show mapGet (if (k, v).1 = k then (k, s) :: rest else _) e' = _
      rw [if_pos rfl, mapGet_cons, mapGet_cons]
      by_cases h : e' = k
      · simp [h]
      · rw [if_neg (fun hc => h hc.symm), if_neg h, if_neg (fun hc => h hc.symm)]

    · show mapGet (if (k, v).1 = e then _ else (k, v) :: mapSet rest e s) e' = _
      rw [if_neg hke, mapGet_cons, mapGet_cons, ih]
      by_cases hke' : k = e'
      · have h : ¬ (e' = e) := fun hc => hke (hke'.trans hc)
        rw [if_pos hke', if_neg h, if_pos hke']
      · rw [if_neg hke', if_neg hke']

lemma mem_setAdd {Ft : Type} [DecidableEq Ft] (s : List Ft) (f g : Ft) :
    g ∈ setAdd s f ↔ g ∈ s ∨ g = f := by
  by_cases h : f ∈ s
  · simp only [setAdd, if_pos h]
    constructor
    · exact fun hg => Or.inl hg
    · rintro (hg | rfl) <;> [exact hg; exact h]
  · simp [setAdd, if_neg h]

lemma mapGet_bucketAdd {Ev Ft : Type} [DecidableEq Ev] [DecidableEq Ft]
    (m : List (Ev × List Ft)) (e e' : Ev) (t : Ft) :
    mapGet (bucketAdd m e t) e' =
      if e' = e then some (setAdd ((mapGet m e).getD []) t) else mapGet m e' := by
  unfold bucketAdd
  cases hm : mapGet m e with
  | none =>
    simp only [hm, Option.isSome_none, Bool.false_eq_true, if_false, Option.getD_none]
    rw [mapGet_mapSet]
    by_cases h : e' = e
    · rw [if_pos h, if_pos h, mapGet_mapSet, if_pos rfl]
      rfl
    · rw [if_neg h, if_neg h, mapGet_mapSet, if_neg h]
  | some s =>
    simp only [hm, Option.isSome_some, if_true, Option.getD_some]
    rw [mapGet_mapSet]

lemma mapGet_innerFold_none {Ev Ft : Type} [DecidableEq Ev] [DecidableEq Ft]
    (evs : List Ev) (m : List (Ev × List Ft)) (t : Ft) (e : Ev) :
    mapGet (evs.foldl (fun acc e0 => bucketAdd acc e0 t) m) e = none ↔
      mapGet m e = none ∧ e ∉ evs := by
  induction evs generalizing m with
  | nil => simp
  | cons e0 rest ih =>
    rw [List.foldl_cons, ih, mapGet_bucketAdd]
    by_cases h : e = e0
    · subst h
      simp
    · simp [h]

lemma mem_mapGet_innerFold {Ev Ft : Type} [DecidableEq Ev] [DecidableEq Ft]
    (evs : List Ev) (m : List (Ev × List Ft)) (t : Ft) (e : Ev) (f : Ft) :
    f ∈ ((mapGet (evs.foldl (fun acc e0 => bucketAdd acc e0 t) m) e).getD []) ↔
      f ∈ ((mapGet m e).getD []) ∨ (f = t ∧ e ∈ evs) := by
  induction evs generalizing m with
  | nil => simp
  | cons e0 rest ih =>
    rw [List.foldl_cons, ih, mapGet_bucketAdd]
    by_cases h : e = e0
    · subst h
      simp [mem_setAdd]
      tauto
    · simp [h]

lemma mapGet_outerFold_none {Ev Ft : Type} [DecidableEq Ev] [DecidableEq Ft]
    (fds : List (FeatureDefinition Ev Ft)) (m : List (Ev × List Ft)) (e : Ev) :
    mapGet (fds.foldl
        (fun m fd => fd.events.foldl (fun acc e0 => bucketAdd acc e0 fd.type) m) m) e = none ↔
      mapGet m e = none ∧ ∀ fd ∈ fds, e ∉ fd.events := by
  induction fds generalizing m with
  | nil => simp
  | cons fd rest ih =>
    rw [List.foldl_cons, ih, mapGet_innerFold_none]
    simp only [List.mem_cons]
    constructor
    · rintro ⟨⟨h1, h2⟩, h3⟩
      refine ⟨h1, ?_⟩
      rintro fd' (rfl | hm)
      · exact h2
      · exact h3 fd' hm
    · rintro ⟨h1, h2⟩
      exact ⟨⟨h1, h2 fd (Or.inl rfl)⟩, fun fd' hm => h2 fd' (Or.inr hm)⟩

lemma mem_mapGet_outerFold {Ev Ft : Type} [DecidableEq Ev] [DecidableEq Ft]
    (fds : List (FeatureDefinition Ev Ft)) (m : List (Ev × List Ft)) (e : Ev) (f : Ft) :
    f ∈ ((mapGet (fds.foldl
        (fun m fd => fd.events.foldl (fun acc e0 => bucketAdd acc e0 fd.type) m) m) e).getD []) ↔
      f ∈ ((mapGet m e).getD []) ∨ ∃ fd ∈ fds, fd.type = f ∧ e ∈ fd.events := by
  induction fds generalizing m with
  | nil => simp
  | cons fd rest ih =>
    rw [List.foldl_cons, ih, mem_mapGet_innerFold]
    simp only [List.mem_cons]
    constructor
    · rintro ((h | ⟨rfl, h2⟩) | ⟨fd', hm, ht, he⟩)
      · exact Or.inl h
      · exact Or.inr ⟨fd, Or.inl rfl, rfl, h2⟩
      · exact Or.inr ⟨fd', Or.inr hm, ht, he⟩
    · rintro (h | ⟨fd', (rfl | hm), ht, he⟩)
      · exact Or.inl (Or.inl h)
      · exact Or.inl (Or.inr ⟨ht.symm, he⟩)
      · exact Or.inr ⟨fd', hm, ht, he⟩

lemma mem_reverseMap_iff {Ev Ft : Type} [DecidableEq Ev] [DecidableEq Ft]
    (features : List (FeatureDefinition Ev Ft)) (event : Ev) (f : Ft) :
    f ∈ ((mapGet (getFeatureTypesByEventCompute features) event).getD []) ↔
      ∃ fd ∈ features, fd.type = f ∧ event ∈ fd.events := by
  have h := mem_mapGet_outerFold features [] event f
  rw [show (List.foldl
      (fun m fd => fd.events.foldl (fun acc e0 => bucketAdd acc e0 fd.type) m)
      [] features) = getFeatureTypesByEventCompute features from rfl] at h
  simpa [mapGet_nil] using h

lemma reverseMap_none_iff {Ev Ft : Type} [DecidableEq Ev] [DecidableEq Ft]
    (features : List (FeatureDefinition Ev Ft)) (event : Ev) :
    mapGet (getFeatureTypesByEventCompute features) event = none ↔
      ∀ fd ∈ features, event ∉ fd.events := by
  have h := mapGet_outerFold_none features [] event
  rw [show (List.foldl
      (fun m fd => fd.events.foldl (fun acc e0 => bucketAdd acc e0 fd.type) m)
      [] features) = getFeatureTypesByEventCompute features from rfl] at h
  simpa [mapGet_nil] using h

/-- C1: for every event `e` and feature list `fs`, `isEventEnabled(e, fs)` is
true iff `e` is in the always-enabled set or `e` appears in the event list of
some Feature Definition whose type is a member of `fs`; in particular, an
event type present in no Feature Definition and not always-enabled is
disabled for every feature list, including the full registry's feature set. -/
theorem isEventEnabled_spec {Ev Ft : Type} [DecidableEq Ev] [DecidableEq Ft]
    (enabledEvents : List Ev) (features : List (FeatureDefinition Ev Ft)) (event : Ev) :
    (∀ enabledFeatures : List Ft,
        (isEventEnabled enabledEvents features event enabledFeatures = true ↔
          event ∈ enabledEvents ∨
            ∃ fd ∈ features, fd.type ∈ enabledFeatures ∧ event ∈ fd.events))
    ∧ ((event ∉ enabledEvents ∧ ∀ fd ∈ features, event ∉ fd.events) →
        ∀ enabledFeatures : List Ft,
          isEventEnabled enabledEvents features event enabledFeatures = false) := by
  have main : ∀ enabledFeatures : List Ft,
      isEventEnabled enabledEvents features event enabledFeatures = true ↔
        event ∈ enabledEvents ∨
          ∃ fd ∈ features, fd.type ∈ enabledFeatures ∧ event ∈ fd.events := by
    intro enabledFeatures
    by_cases hev : event ∈ enabledEvents
    · simp [isEventEnabled, hev]
    · have hc : enabledEvents.contains event = false := by
        simpa using hev
      rw [isEventEnabled, hc]
      simp only [Bool.false_eq_true, if_false]
      cases hmg : mapGet (getFeatureTypesByEventCompute features) event with
      | none =>
        have hnone := (reverseMap_none_iff features event).mp hmg
        simp only [Bool.false_eq_true, false_iff]
        rintro (h | ⟨fd, hfd, _, hevfd⟩)
        · exact hev h
        · exact hnone fd hfd hevfd
      | some s =>
        have hs : ∀ f, f ∈ s ↔ ∃ fd ∈ features, fd.type = f ∧ event ∈ fd.events := by
          intro f
          have h := mem_reverseMap_iff features event f
          rw [hmg] at h
          simpa using h
        simp only [List.any_eq_true]
        constructor
        · rintro ⟨f, hf, hfs⟩
          have hfmem : f ∈ s := by simpa using hfs
          obtain ⟨fd, hfd, rfl, hevfd⟩ := (hs f).mp hfmem
          exact Or.inr ⟨fd, hfd, hf, hevfd⟩
        · rintro (h | ⟨fd, hfd, htyp, hevfd⟩)
          · exact absurd h hev
          · refine ⟨fd.type, htyp, ?_⟩
            simpa using (hs fd.type).mpr ⟨fd, hfd, rfl, hevfd⟩
  refine ⟨main, ?_⟩
  rintro ⟨h1, h2⟩ enabledFeatures
  have hne : ¬ isEventEnabled enabledEvents features event enabledFeatures = true := by
    rw [main enabledFeatures]
    rintro (h | ⟨fd, hfd, _, hevfd⟩)
    · exact h1 h
    · exact h2 fd hfd hevfd
  exact Bool.not_eq_true _ ▸ hne

/-- C1 witness: with registry `[{type := 5, events := [1]}]` and always-enabled
set `[0]`, the unknown event `2` is disabled even for the full feature set `[5]`. -/
theorem isEventEnabled_spec_witness :
    ((2 : ℕ) ∉ ([0] : List ℕ) ∧
        ∀ fd ∈ [FeatureDefinition.mk (5 : ℕ) [(1 : ℕ)]], (2 : ℕ) ∉ fd.events) ∧
      isEventEnabled [(0 : ℕ)] [FeatureDefinition.mk (5 : ℕ) [(1 : ℕ)]] 2 [(5 : ℕ)] = false :=
  ⟨⟨by decide, by decide⟩,
    (isEventEnabled_spec [(0 : ℕ)] [FeatureDefinition.mk (5 : ℕ) [(1 : ℕ)]] 2).2
      ⟨by decide, by decide⟩ [(5 : ℕ)]⟩

/-- Runtime state of a JS promise: pending, fulfilled with a value, or
rejected. This is the shallow embedding of the `Promise` wrapped by the
`Deferred` record produced by `defer()`. -/
inductive PromiseState (T : Type) where
  | pending
  | fulfilled (v : T)
  | rejected (e : T)
deriving DecidableEq

/-- `defer()`: a fresh Deferred whose promise is pending. -/
def defer (T : Type) : PromiseState T := PromiseState.pending

/-- The `resolve` closure captured by `defer()`: settles a pending promise;
per JS promise semantics a settled promise is never re-settled. -/
def deferResolve {T : Type} (s : PromiseState T) (v : T) : PromiseState T :=
  match s with
  | PromiseState.pending => PromiseState.fulfilled v
  | s => s

/-- The `reject` closure captured by `defer()`. -/
def deferReject {T : Type} (s : PromiseState T) (e : T) : PromiseState T :=
  match s with
  | PromiseState.pending => PromiseState.rejected e
  | s => s

/-- Awaiting the deferred promise: yields the fulfilled value once present. -/
def promiseAwait {T : Type} (s : PromiseState T) : Option T :=
  match s with
  | PromiseState.fulfilled v => some v
  | _ => none

/-- A settlement attempt on the deferred promise. -/
inductive PromiseOp (T : Type) where
  | resolve (v : T)
  | reject (e : T)

/-- Runs a sequence of settlement attempts against a promise state. -/
def promiseRun {T : Type} : PromiseState T → List (PromiseOp T) → PromiseState T
  | s, [] => s
  | s, PromiseOp.resolve v :: rest => promiseRun (deferResolve s v) rest
  | s, PromiseOp.reject e :: rest => promiseRun (deferReject s e) rest

lemma promiseRun_fulfilled {T : Type} (v : T) (ops : List (PromiseOp T)) :
    promiseRun (PromiseState.fulfilled v) ops = PromiseState.fulfilled v := by
  induction ops with
  | nil => rfl
  | cons op rest ih => cases op <;> exact ih

/-- JSON-like context values, precise enough to state replace-vs-merge. -/
inductive CtxVal where
  | vstr (s : String)
  | varr (xs : List CtxVal)
  | vobj (fields : List (String × CtxVal))

/-- Field lookup on a context value (`ctx.app`, `ctx.data`, ...). -/
def lookupField : CtxVal → String → Option CtxVal
  | CtxVal.vobj fields, k => (fields.find? (fun p => p.1 == k)).map (fun p => p.2)
  | _, _ => none

/-- The context-relevant state of the client facade: the `context` field of
`DDClient`, holding the Deferred created at construction. -/
structure ClientState (Ctx : Type) where
  context : PromiseState Ctx

/-- A fresh `DDClient`: the constructor sets `this.context = defer()`. -/
def clientNew (Ctx : Type) : ClientState Ctx := ⟨defer Ctx⟩

/-- Modelled from the spec: the reserved context-change handler is not under
src (only its test is); per the spec, an inbound event of the reserved
context-changed type causes the held context reference to be replaced by the
new payload in full, via a fresh already-resolved resolver. -/
def handleContextChange {Ctx : Type} (_s : ClientState Ctx) (c : Ctx) : ClientState Ctx :=
  ⟨PromiseState.fulfilled c⟩

/-- Context-affecting entry points of the client. -/
inductive ClientOp (Ctx : Type) where
  | hostInit (c : Ctx)
  | contextChange (c : Ctx)

/-- One inbound callback: `hostInit` is `DDClient.init` resolving the
context Deferred; `contextChange` is the reserved context-change event. -/
def clientStep {Ctx : Type} (s : ClientState Ctx) : ClientOp Ctx → ClientState Ctx
  | ClientOp.hostInit c => ⟨deferResolve s.context c⟩
  | ClientOp.contextChange c => handleContextChange s c

/-- Runs a sequence of inbound callbacks against the client state. -/
def clientRun {Ctx : Type} (s : ClientState Ctx) : List (ClientOp Ctx) → ClientState Ctx
  | [] => s
  | op :: rest => clientRun (clientStep s op) rest

/-- `DDClient.getContext()`: returns the held context promise; here, its
value once fulfilled. -/
def getContext {Ctx : Type} (s : ClientState Ctx) : Option Ctx :=
  promiseAwait s.context

/-- The initial context of the context-change scenario:
`{app: {features: ["A"]}}`. -/
def mockInitialContext : CtxVal :=
  CtxVal.vobj [("app", CtxVal.vobj [("features", CtxVal.varr [CtxVal.vstr "A"])])]

/-- The context-change payload of the scenario: `{data: "new context"}`. -/
def newContextPayload : CtxVal :=
  CtxVal.vobj [("data", CtxVal.vstr "new context")]

/-- C2: a context-change event replaces the held context in full, so every
subsequent `getContext()` returns exactly the new payload; in the concrete
scenario the result `{data: "new context"}` has no `app` field although the
replaced initial context did (replacement, not merge). -/
theorem contextChange_replaces_in_full :
    (∀ (Ctx : Type) (s : ClientState Ctx) (p : Ctx),
        getContext (clientStep s (ClientOp.contextChange p)) = some p)
    ∧ getContext (clientRun (clientNew CtxVal)
        [ClientOp.hostInit mockInitialContext, ClientOp.contextChange newContextPayload])
        = some newContextPayload
    ∧ lookupField newContextPayload "app" = none
    ∧ (lookupField mockInitialContext "app").isSome = true := by
  exact ⟨fun Ctx s p => rfl, rfl, rfl, rfl⟩

/-- C3: once the context Deferred has been resolved with `v`, a
`getContext()` issued before the resolution and one issued after it both
observe `v`: the resolver admits no missed and no second resolution. -/
theorem getContext_single_resolution {Ctx : Type}
    (ops ops' : List (PromiseOp Ctx)) (v : Ctx)
    (h : promiseRun (defer Ctx) ops = PromiseState.fulfilled v) :
    promiseAwait (promiseRun (defer Ctx) ops) = some v
    ∧ promiseRun (promiseRun (defer Ctx) ops) ops' = PromiseState.fulfilled v
    ∧ promiseAwait (promiseRun (promiseRun (defer Ctx) ops) ops') = some v := by
  rw [h, promiseRun_fulfilled]
  exact ⟨rfl, rfl, rfl⟩

/-- C3 witness: resolving with 5 and then attempting resolve 7 and reject 9
still yields 5 to every caller. -/
theorem getContext_single_resolution_witness :
    promiseAwait (promiseRun (promiseRun (defer ℕ) [PromiseOp.resolve 5])
      [PromiseOp.resolve 7, PromiseOp.reject 9]) = some 5 :=
  (getContext_single_resolution [PromiseOp.resolve 5]
    [PromiseOp.resolve 7, PromiseOp.reject 9] 5 rfl).2.2

/-- C9: a Deferred is first-resolution-wins: after `resolve v`, any further
settlement attempts leave the promise fulfilled with `v`, and in particular a
second host init callback cannot change the context seen by `getContext()`. -/
theorem defer_first_resolution_wins {T : Type} (v : T) (ops : List (PromiseOp T)) :
    promiseRun (deferResolve (defer T) v) ops = PromiseState.fulfilled v
    ∧ promiseAwait (promiseRun (deferResolve (defer T) v) ops) = some v
    ∧ ∀ (c c' : T),
        getContext (clientRun (clientNew T) [ClientOp.hostInit c, ClientOp.hostInit c'])
          = some c := by
  have h1 : promiseRun (deferResolve (defer T) v) ops = PromiseState.fulfilled v := by
    show promiseRun (PromiseState.fulfilled v) ops = _
    exact promiseRun_fulfilled v ops
  refine ⟨h1, by rw [h1]; rfl, fun c c' => rfl⟩

/-- Execution state of the facade's `init` callback: whether the handshake
establishment future has completed, the program counter of the `init`
coroutine (0 = suspended at `await this.handshake`, 1 = past it), and
whether `this.context.resolve` has run. -/
structure InitExec where
  handshakeDone : Bool
  initStage : Nat
  contextResolved : Bool
deriving DecidableEq

/-- Scheduler actions: the transport completes the handshake, or the event
loop advances the `init` coroutine by one step. -/
inductive InitAct where
  | completeHandshake
  | stepInit

/-- One scheduler step. Advancing `init` past its `await this.handshake`
suspension point is only possible once the handshake future has completed;
the resolution of the context happens at that same advance. -/
def initStep (s : InitExec) : InitAct → InitExec
  | InitAct.completeHandshake => { s with handshakeDone := true }
  | InitAct.stepInit =>
      if s.handshakeDone then
        if s.initStage = 0 then
          { s with initStage := 1, contextResolved := true }
        else s
      else s

/-- Runs a schedule from the construction-time state: handshake pending,
`init` not yet advanced, context unresolved. -/
def initRun (acts : List InitAct) : InitExec :=
  acts.foldl initStep ⟨false, 0, false⟩

lemma initStep_preserves (s : InitExec) (a : InitAct)
    (h : s.contextResolved = true → s.handshakeDone = true) :
    (initStep s a).contextResolved = true → (initStep s a).handshakeDone = true := by
  cases a with
  | completeHandshake => intro _; rfl
  | stepInit =>
    cases hh : s.handshakeDone with
    | true =>
      by_cases hs : s.initStage = 0
      · intro _
        simp [initStep, hh, hs]
    
      · intro hc
        simp [initStep, hh, hs]
    | false =>
      intro hc
      have hc2 : s.contextResolved = true := by simpa [initStep, hh] using hc
      simpa [initStep, hh] using h hc2

lemma initFold_preserves (acts : List InitAct) (s : InitExec)
    (h : s.contextResolved = true → s.handshakeDone = true) :
    (acts.foldl initStep s).contextResolved = true →
      (acts.foldl initStep s).handshakeDone = true := by
  induction acts generalizing s with
  | nil => exact h
  | cons a rest ih => exact ih (initStep s a) (initStep_preserves s a h)

/-- C6: in every schedule, the `init` callback resolves the context Deferred
only after the handshake establishment future has completed — even if the
host invokes the callback before the handshake protocol finishes, the
`await` suspends it and no resolution happens. -/
theorem init_resolves_only_after_handshake (acts : List InitAct)
    (h : (initRun acts).contextResolved = true) :
    (initRun acts).handshakeDone = true :=
  initFold_preserves acts ⟨false, 0, false⟩ (fun hc => by cases hc) h

/-- C6 witness: in the schedule where the handshake completes and the `init`
coroutine then advances, the context is resolved and the handshake is
indeed already done. -/
theorem init_resolves_only_after_handshake_witness :
    (initRun [InitAct.completeHandshake, InitAct.stepInit]).contextResolved = true
    ∧ (initRun [InitAct.completeHandshake, InitAct.stepInit]).handshakeDone = true :=
  ⟨by decide, init_resolves_only_after_handshake
    [InitAct.completeHandshake, InitAct.stepInit] (by decide)⟩

/-- A capability manager as seen by the facade's routing: its governing
feature type, its two static routing lists, and its handler registrations. -/
structure CapabilityManagerS (Ev Ft HId : Type) where
  type : Ft
  eventsToSubscribe : List Ev
  eventsToTrigger : List Ev
  handlers : List (Ev × HId)
deriving DecidableEq

/-- `subscribeHandler(eventType, handler)` on a manager: records the
registration (the returned unsubscribe capability is represented by the
`UnsubCap.fromManager` value built by the facade). -/
def subscribeHandler {Ev Ft HId : Type}
    (m : CapabilityManagerS Ev Ft HId) (e : Ev) (h : HId) : CapabilityManagerS Ev Ft HId :=
  { m with handlers := m.handlers ++ [(e, h)] }

/-- The unsubscribe capability returned by `DDClient.on`: either the no-op
`() => \x7b\x7d` of the unknown-event branch, or the owning manager's one. -/
inductive UnsubCap (Ev Ft HId : Type) where
  | noop
  | fromManager (t : Ft) (e : Ev) (h : HId)
deriving DecidableEq

/-- Result of a `DDClient.on` call: updated managers, returned unsubscribe
capability, and whether `logger.error` ran. -/
structure OnResult (Ev Ft HId : Type) where
  managers : List (CapabilityManagerS Ev Ft HId)
  unsub : UnsubCap Ev Ft HId
  errorLogged : Bool
deriving DecidableEq

/-- `DDClient.on(eventType, handler)`: finds the first manager whose
`eventsToSubscribe` includes the event type; if none, logs an error and
returns a no-op unsubscribe capability; otherwise delegates to that
manager's `subscribeHandler`. -/
def clientOn {Ev Ft HId : Type} [DecidableEq Ev] :
    List (CapabilityManagerS Ev Ft HId) → Ev → HId → OnResult Ev Ft HId
  | [], _, _ => ⟨[], UnsubCap.noop, true⟩
  | m :: ms, e, h =>
    match m.eventsToSubscribe.contains e with
    | true => ⟨subscribeHandler m e h :: ms, UnsubCap.fromManager m.type e h, false⟩
    | false =>
      let r := clientOn ms e h
      ⟨m :: r.managers, r.unsub, r.errorLogged⟩

/-- C4: `on(eventType, handler)` never throws: when no manager's
`eventsToSubscribe` contains the event type it logs an error, changes
nothing and returns the no-op unsubscribe capability; otherwise it delegates
to the first owning manager's `subscribeHandler` and returns that manager's
unsubscribe capability without logging. -/
theorem clientOn_spec {Ev Ft HId : Type} [DecidableEq Ev]
    (mgrs : List (CapabilityManagerS Ev Ft HId)) (e : Ev) (h : HId) :
    (mgrs.find? (fun m => m.eventsToSubscribe.contains e) = none →
        clientOn mgrs e h = ⟨mgrs, UnsubCap.noop, true⟩)
    ∧ (∀ m, mgrs.find? (fun m => m.eventsToSubscribe.contains e) = some m →
        (clientOn mgrs e h).unsub = UnsubCap.fromManager m.type e h
        ∧ (clientOn mgrs e h).errorLogged = false) := by
  induction mgrs with
  | nil =>
    exact ⟨fun _ => rfl, fun m hm => by cases hm⟩
  | cons m0 ms ih =>
    cases hc : m0.eventsToSubscribe.contains e with
    | true =>
      have hfind : List.find? (fun m => m.eventsToSubscribe.contains e) (m0 :: ms)
          = some m0 := List.find?_cons_of_pos ms hc
      constructor
      · intro hnone
        rw [hfind] at hnone
        cases hnone
      · intro m hm
        rw [hfind] at hm
        cases hm
        constructor
        · show (clientOn (m0 :: ms) e h).unsub = _
          simp only [clientOn, hc]
        · show (clientOn (m0 :: ms) e h).errorLogged = false
          simp only [clientOn, hc]
    | false =>
      have hne : ¬ (m0.eventsToSubscribe.contains e = true) := by
        rw [hc]
        exact fun hcc => Bool.noConfusion hcc
      have hfind : List.find? (fun m => m.eventsToSubscribe.contains e) (m0 :: ms)
          = List.find? (fun m => m.eventsToSubscribe.contains e) ms :=
        List.find?_cons_of_neg ms hne
      constructor
      · intro hnone
        rw [hfind] at hnone
        have h1 := ih.1 hnone
        show clientOn (m0 :: ms) e h = _
        simp only [clientOn, hc, h1]
      · intro m hm
        rw [hfind] at hm
        have h2 := ih.2 m hm
        show (clientOn (m0 :: ms) e h).unsub = _ ∧ (clientOn (m0 :: ms) e h).errorLogged = false
        simpa only [clientOn, hc] using h2

/-- C4 witness: a registry of one manager owning event 1; `on(1, 5)`
delegates to it and returns its unsubscribe capability without logging. -/
theorem clientOn_spec_witness :
    (clientOn [CapabilityManagerS.mk (7 : ℕ) [(1 : ℕ)] [(2 : ℕ)] []] 1 (5 : ℕ)).unsub
        = UnsubCap.fromManager 7 1 5
    ∧ (clientOn [CapabilityManagerS.mk (7 : ℕ) [(1 : ℕ)] [(2 : ℕ)] []] 1 (5 : ℕ)).errorLogged
        = false :=
  (clientOn_spec [CapabilityManagerS.mk (7 : ℕ) [(1 : ℕ)] [(2 : ℕ)] []] 1 (5 : ℕ)).2
    (CapabilityManagerS.mk (7 : ℕ) [(1 : ℕ)] [(2 : ℕ)] []) (by decide)

/-- Observable outcome of a `DDClient.triggerEvent` call: whether
`logger.error` ran, which manager (by its feature type) the call was
delegated to, and the `(eventType, data)` pairs sent to the transport. -/
structure TriggerResult (Ev Ft Data : Type) where
  errorLogged : Bool
  delegatedTo : Option Ft
  sent : List (Ev × Data)

/-- Modelled from the spec: concrete managers are not under src (only the
facade is); per the generic manager contract, `triggerEvent` checks that the
manager's feature is enabled against the resolved context and, if so,
forwards exactly the `(eventType, data)` pair to the transport's
fire-and-forget send primitive. -/
def managerTriggerEvent {Ev Ft HId Data : Type} [DecidableEq Ft]
    (m : CapabilityManagerS Ev Ft HId) (enabledFeatures : List Ft)
    (e : Ev) (d : Data) : List (Ev × Data) :=
  if isFeatureEnabled m.type enabledFeatures then [(e, d)] else []

/-- `DDClient.triggerEvent(eventType, data)`: finds the first manager whose
`eventsToTrigger` includes the event type; if none, logs an error and does
nothing else; otherwise delegates to that manager's `triggerEvent`. -/
def clientTriggerEvent {Ev Ft HId Data : Type} [DecidableEq Ev] [DecidableEq Ft]
    (mgrs : List (CapabilityManagerS Ev Ft HId)) (enabledFeatures : List Ft)
    (e : Ev) (d : Data) : TriggerResult Ev Ft Data :=
  match mgrs.find? (fun m => m.eventsToTrigger.contains e) with
  | none => ⟨true, none, []⟩
  | some m => ⟨false, some m.type, managerTriggerEvent m enabledFeatures e d⟩

/-- A JS value, rich enough to hold the default argument `{}`. -/
inductive JsData where
  | obj (fields : List (String × JsData))
  | str (s : String)

/-- `triggerEvent(eventType)` with the data argument omitted: the TS
default parameter `data = {}` applies. -/
def clientTriggerEventNoData {Ev Ft HId : Type} [DecidableEq Ev] [DecidableEq Ft]
    (mgrs : List (CapabilityManagerS Ev Ft HId)) (enabledFeatures : List Ft)
    (e : Ev) : TriggerResult Ev Ft JsData :=
  clientTriggerEvent mgrs enabledFeatures e (JsData.obj [])

/-- C5: `triggerEvent(eventType, data)`: if no manager's `eventsToTrigger`
contains the event type, it logs an error, delegates to no manager and sends
nothing to the transport; otherwise it delegates to the first owning
manager; and an omitted data argument is passed as the empty object. -/
theorem clientTriggerEvent_spec {Ev Ft HId Data : Type} [DecidableEq Ev] [DecidableEq Ft]
    (mgrs : List (CapabilityManagerS Ev Ft HId)) (feats : List Ft) (e : Ev) (d : Data) :
    (mgrs.find? (fun m => m.eventsToTrigger.contains e) = none →
        clientTriggerEvent mgrs feats e d = ⟨true, none, ([] : List (Ev × Data))⟩)
    ∧ (∀ m, mgrs.find? (fun m => m.eventsToTrigger.contains e) = some m →
        clientTriggerEvent mgrs feats e d
          = ⟨false, some m.type, managerTriggerEvent m feats e d⟩)
    ∧ (∀ (mgrs' : List (CapabilityManagerS Ev Ft HId)) (feats' : List Ft) (e' : Ev),
        clientTriggerEventNoData mgrs' feats' e'
          = clientTriggerEvent mgrs' feats' e' (JsData.obj [])) :=
  ⟨fun hn => by simp only [clientTriggerEvent, hn],
   fun m hm => by simp only [clientTriggerEvent, hm],
   fun _ _ _ => rfl⟩

/-- C5 witness: with no managers at all, `triggerEvent(3, 0)` logs an error,
delegates to nobody and sends nothing. -/
theorem clientTriggerEvent_spec_witness :
    clientTriggerEvent ([] : List (CapabilityManagerS ℕ ℕ ℕ)) ([] : List ℕ) 3 (0 : ℕ)
      = ⟨true, none, []⟩ :=
  (clientTriggerEvent_spec ([] : List (CapabilityManagerS ℕ ℕ ℕ)) [] 3 (0 : ℕ)).1 rfl

/-- The closure state of the `memoize` combinator: the `executed` flag and
the stored `value` (absent until the first call). -/
structure MemoState (T : Type) where
  executed : Bool
  value : Option T

/-- The cache at module load time: not executed, no value. -/
def memoInit (T : Type) : MemoState T := ⟨false, none⟩

/-- One call of the memoized function: if already executed, return the
stored value without running the getter; otherwise run the getter, store
the result and flip the flag. -/
def memoCall {T : Type} (getter : Unit → T) (s : MemoState T) : T × MemoState T :=
  if s.executed then (s.value.getD (getter ()), s)
  else
    let v := getter ()
    (v, ⟨true, some v⟩)

/-- Threads a sequence of calls (each carrying the getter it would run)
through the cache, collecting the returned values. -/
def memoRunCalls {T : Type} : List (Unit → T) → MemoState T → List T × MemoState T
  | [], s => ([], s)
  | g :: gs, s =>
    let p := memoCall g s
    let q := memoRunCalls gs p.2
    (p.1 :: q.1, q.2)

lemma memoRunCalls_cached {T : Type} (v : T) (gs : List (Unit → T)) :
    memoRunCalls gs ⟨true, some v⟩ = (gs.map (fun _ => v), ⟨true, some v⟩) := by
  induction gs with
  | nil => rfl
  | cons g rest ih =>
    show ((memoCall g ⟨true, some v⟩).1 :: (memoRunCalls rest (memoCall g ⟨true, some v⟩).2).1,
        (memoRunCalls rest (memoCall g ⟨true, some v⟩).2).2) = _
    have hcall : memoCall g (⟨true, some v⟩ : MemoState T) = (v, ⟨true, some v⟩) := rfl
    rw [hcall, ih]
    rfl

/-- C8: the memoized `getFeatureTypesByEvent` computes the reverse map
exactly once: the first call returns the unmemoized computation, and every
later call — even with a different getter, as if the registry had changed —
returns that identical first value with the cache unchanged, so repeated
`isEventEnabled` calls observe the identical map. -/
theorem getFeatureTypesByEvent_memoized_once {Ev Ft : Type} [DecidableEq Ev] [DecidableEq Ft]
    (features : List (FeatureDefinition Ev Ft))
    (laterGetters : List (Unit → List (Ev × List Ft))) :
    memoRunCalls ((fun _ => getFeatureTypesByEventCompute features) :: laterGetters)
        (memoInit (List (Ev × List Ft)))
      = (getFeatureTypesByEventCompute features
            :: laterGetters.map (fun _ => getFeatureTypesByEventCompute features),
          ⟨true, some (getFeatureTypesByEventCompute features)⟩) := by
  show ((memoCall _ (memoInit _)).1
      :: (memoRunCalls laterGetters (memoCall _ (memoInit _)).2).1,
      (memoRunCalls laterGetters (memoCall _ (memoInit _)).2).2) = _
  have hfirst : memoCall (fun _ => getFeatureTypesByEventCompute features)
      (memoInit (List (Ev × List Ft)))
      = (getFeatureTypesByEventCompute features,
          ⟨true, some (getFeatureTypesByEventCompute features)⟩) := rfl
  rw [hfirst, memoRunCalls_cached]

/-- The argument of `validateKey`: a raw string key, or a definition object
whose optional `key` field may be absent or the empty string (the falsy
cases of `!!definition.key`). -/
inductive DefinitionOrKey where
  | str (s : String)
  | defn (key : Option String) (source : Option String)
deriving DecidableEq

/-- `isDefinitionWithKey(definition)`: the truthiness test
`!!definition.key` (false on a raw string, whose `key` field is undefined). -/
def isDefinitionWithKey : DefinitionOrKey → Bool
  | DefinitionOrKey.str _ => false
  | DefinitionOrKey.defn k _ =>
    match k with
    | none => false
    | some s => decide (s ≠ "")

/-- Outcome of a `validateKey` call: a returned boolean or a thrown error. -/
inductive VKResult where
  | ok (b : Bool)
  | err (msg : String)
deriving DecidableEq

/-- The message of the error thrown on a definition without a key. -/
def keyErrorMsg : String := "Definition missing required field \".key\""

/-- `validateKey(definitionOrKey)`: a string argument returns its
non-emptiness; any other argument throws unless `!!definition.key`. -/
def validateKey : DefinitionOrKey → VKResult
  | DefinitionOrKey.str s => VKResult.ok (decide (s.length > 0))
  | d =>
    if isDefinitionWithKey d then VKResult.ok true
    else VKResult.err keyErrorMsg

/-- C10: `validateKey` is asymmetric by input shape: a string argument never
throws and returns true iff the string is non-empty; a definition argument
never returns false — it throws exactly when its key field is absent or
falsy (including the empty string), and returns true otherwise. -/
theorem validateKey_shape :
    (∀ s : String, validateKey (DefinitionOrKey.str s) = VKResult.ok (decide (s.length > 0)))
    ∧ (∀ (k : Option String) (src : Option String),
        validateKey (DefinitionOrKey.defn k src) ≠ VKResult.ok false)
    ∧ (∀ (k : Option String) (src : Option String),
        validateKey (DefinitionOrKey.defn k src) = VKResult.err keyErrorMsg
          ↔ (k = none ∨ k = some ""))
    ∧ (∀ (k : Option String) (src : Option String),
        (k ≠ none ∧ k ≠ some "") →
          validateKey (DefinitionOrKey.defn k src) = VKResult.ok true) := by
  have hval : ∀ (k : Option String) (src : Option String),
      validateKey (DefinitionOrKey.defn k src)
        = if isDefinitionWithKey (DefinitionOrKey.defn k src) then VKResult.ok true
          else VKResult.err keyErrorMsg := fun k src => rfl
  refine ⟨fun s => rfl, ?_, ?_, ?_⟩
  · intro k src
    rw [hval]
    by_cases h : isDefinitionWithKey (DefinitionOrKey.defn k src) = true
    · simp [h]
    · simp [h]
  · intro k src
    rw [hval]
    cases k with
    | none => simp [isDefinitionWithKey]
    | some s =>
      by_cases hs : s = ""
      · subst hs
        simp [isDefinitionWithKey]
      · simp [isDefinitionWithKey, hs]
  · rintro k src ⟨hk1, hk2⟩
    rw [hval]
    cases k with
    | none => exact absurd rfl hk1
    | some s =>
      have hs : s ≠ "" := fun hc => hk2 (by rw [hc])
      simp [isDefinitionWithKey, hs]

/-- C10 witness: the definition `{source: "modal.html"}` without a key
throws the validation error; the definition `{key: "my-modal"}` returns
true; the empty string returns false without throwing. -/
theorem validateKey_shape_witness :
    validateKey (DefinitionOrKey.defn none (some "modal.html"))
        = VKResult.err keyErrorMsg
    ∧ validateKey (DefinitionOrKey.defn (some "my-modal") none) = VKResult.ok true
    ∧ validateKey (DefinitionOrKey.str "") = VKResult.ok false :=
  ⟨(validateKey_shape.2.2.1 none (some "modal.html")).mpr (Or.inl rfl),
    validateKey_shape.2.2.2 (some "my-modal") none ⟨by decide, by decide⟩,
    validateKey_shape.1 ""⟩

/-- Error raised by a modal capability operation. -/
inductive ModalError where
  | validation (msg : String)
  | capabilityNotEnabled
deriving DecidableEq

/-- Outcome of `modal.open(definition)`: the error it rejected with, if
any, and the requests actually issued to the transport's request primitive,
in order. -/
structure ModalOpenResult where
  error : Option ModalError
  requests : List (String × DefinitionOrKey)
deriving DecidableEq

/-- Modelled from the spec: the modal capability module is not under src
(only its test is). Per the spec and that test, `open(definition)` first
validates the payload with `validateKey` (embedded above from the source)
and rejects with a validation error before any cross-boundary call; only
then is feature enablement consulted and the open-modal request issued. -/
def modalOpen (enabledFeatures : List String) (defn : DefinitionOrKey) : ModalOpenResult :=
  match validateKey defn with
  | VKResult.err m => ⟨some (ModalError.validation m), []⟩
  | VKResult.ok _ =>
    if isFeatureEnabled "MODALS" enabledFeatures then
      ⟨none, [("open_modal", defn)]⟩
    else
      ⟨some ModalError.capabilityNotEnabled, []⟩

/-- C7: a malformed open-request payload whose required key field is
missing rejects with a validation error and the transport's request
primitive is never invoked (no request issued), for every feature list —
including one with the modals feature enabled. -/
theorem modalOpen_invalid_definition (feats : List String) (src : Option String) :
    modalOpen feats (DefinitionOrKey.defn none src)
      = ⟨some (ModalError.validation keyErrorMsg), []⟩ := rfl
